import Mathlib

/-!
Verification of the feedforward neural-network trainer (Layer/NeuralNetwork
engine, MNIST dataset decoder, bilinear image scaling, binary model
persistence) against its specification.

Modelling conventions:
* `float` values are modelled as exact rationals `ℚ`; float arithmetic is
  modelled as exact arithmetic.  The transcendental C routines `std::tanh`
  and `std::exp` used by the activation functions are modelled as an
  abstract pair of functions (`FloatOps`); every theorem holds for an
  arbitrary interpretation of them.
* `std::vector<float>` is modelled as `List ℚ`; an in-bounds element read
  `v[i]` is modelled as `v.getD i 0` and an element write as `List.set`.
* Binary files are modelled at the level of the fields the program reads
  and writes: the model file is a list of typed field tokens (`FileItem`),
  each token standing for the native byte encoding of one field — a
  4-byte `int`, the activation tag written with `sizeof(ActivationType)`
  bytes, or a 4-byte `float` — with `FileItem.byteSize` recording each
  field's on-disk width; the MNIST files are lists of bytes
  (`ℕ`, each `< 256`).
* The `bool is_open()` outcome of opening a file stream is passed in as an
  explicit `openOk : Bool` argument.
-/

namespace NN

/-- Abstract stand-ins for the C math-library routines `std::tanh` and
`std::exp` that the activation functions call.  The theorems below hold for
every interpretation of these two functions. -/
structure FloatOps where
  tanh : ℚ → ℚ
  exp : ℚ → ℚ

/-- The `ActivationType` enum of the source is a scoped enum whose values
are character codes (`Sigmoid = 's'`, `Tanh = 't'`, `ReLU = 'r'`,
`LeakyReLU = 'l'`); it is modelled directly by that `Char` value, which is
what `save`/`load` write and read for it (as a field of
`sizeof(ActivationType)` bytes — see `FileItem.byteSize`). -/
abbrev ActivationType := Char

/-- Model of `Layer::activation` (the `switch` in the source, including its
`default: return x` arm). -/
def activation (F : FloatOps) (actType : ActivationType) (x : ℚ) : ℚ :=
  if actType = 't' then F.tanh x
  else if actType = 's' then 1 / (1 + F.exp (-x))
  else if actType = 'r' then max 0 x
  else if actType = 'l' then (if x > 0 then x else (1/100) * x)
  else x

/-- Model of `Layer::activationDerivative`, which is evaluated at the
activated output value `y` (including the `default: return 1.0f` arm). -/
def activationDerivative (actType : ActivationType) (y : ℚ) : ℚ :=
  if actType = 't' then 1 - y * y
  else if actType = 's' then y * (1 - y)
  else if actType = 'r' then (if y > 0 then 1 else 0)
  else if actType = 'l' then (if y > 0 then 1 else 1/100)
  else 1

/-- Model of the `Layer` class: dimensions, activation kind, flattened
weight matrix (row-major, index `in * numNodesOut + out`), biases, and the
transient `lastInputs`/`lastOutputs` memory written by the forward pass. -/
structure Layer where
  numNodesIn : ℕ
  numNodesOut : ℕ
  actType : ActivationType
  weights : List ℚ
  biases : List ℚ
  lastInputs : List ℚ
  lastOutputs : List ℚ
deriving Repr, DecidableEq

instance : Inhabited Layer := ⟨⟨0, 0, 's', [], [], [], []⟩⟩

/-- Model of `Layer::calculateOutput`: for each output unit `out`,
`sum = biases[out] + Σ_in inputs[in] * weights[in*numNodesOut + out]`,
`outputs[out] = activation(sum)`; stores `inputs` in `lastInputs` and the
activated result in `lastOutputs`.  Returns the mutated layer together with
the returned output vector. -/
def Layer.calculateOutput (F : FloatOps) (L : Layer) (inputs : List ℚ) :
    Layer × List ℚ :=
  let outputs := (List.range L.numNodesOut).foldl (fun outs out =>
    outs.set out (activation F L.actType
      ((List.range L.numNodesIn).foldl
        (fun sum inn => sum + inputs.getD inn 0 * L.weights.getD (inn * L.numNodesOut + out) 0)
        (L.biases.getD out 0))))
    (List.replicate L.numNodesOut 0)
  ({ L with lastInputs := inputs, lastOutputs := outputs }, outputs)

/-- The `delta` of one output unit in `Layer::backPropagate`:
`outputGradients[out] * activationDerivative(lastOutputs[out])`. -/
def Layer.deltaAt (L : Layer) (outputGradients : List ℚ) (out : ℕ) : ℚ :=
  outputGradients.getD out 0 *
    activationDerivative L.actType (L.lastOutputs.getD out 0)

/-- Body of the inner (`in`) loop of `Layer::backPropagate` on the state
`(weights, inputGradients)`: the input-gradient accumulation
`inputGradients[inn] += delta * weights[weightIndex]` reads the weight
before the weight update
`weights[weightIndex] -= learningRate * delta * lastInputs[inn]`
is applied. -/
def backPropInnerStep (numNodesOut out : ℕ) (delta learningRate : ℚ)
    (lastInputs : List ℚ) (t : List ℚ × List ℚ) (inn : ℕ) : List ℚ × List ℚ :=
  let weightIndex := inn * numNodesOut + out
  (t.1.set weightIndex
     (t.1.getD weightIndex 0 - learningRate * delta * lastInputs.getD inn 0),
   t.2.set inn (t.2.getD inn 0 + delta * t.1.getD weightIndex 0))

/-- Body of the outer (`out`) loop of `Layer::backPropagate` on the state
`(biases, weights, inputGradients)`: compute `delta`, update
`biases[out] -= learningRate * delta`, then run the inner loop over every
input unit. -/
def backPropOuterStep (L : Layer) (outputGradients : List ℚ) (learningRate : ℚ)
    (s : List ℚ × List ℚ × List ℚ) (out : ℕ) : List ℚ × List ℚ × List ℚ :=
  let delta := L.deltaAt outputGradients out
  let biases' := s.1.set out (s.1.getD out 0 - learningRate * delta)
  let inner := (List.range L.numNodesIn).foldl
    (backPropInnerStep L.numNodesOut out delta learningRate L.lastInputs)
    s.2
  (biases', inner.1, inner.2)

/-- Model of `Layer::backPropagate`: start from the current biases and
weights and a zero-initialized `inputGradients` of length `numNodesIn`, run
the outer loop over every output unit, and return the mutated layer
together with the returned `inputGradients`. -/
def Layer.backPropagate (L : Layer) (outputGradients : List ℚ) (learningRate : ℚ) :
    Layer × List ℚ :=
  let final := (List.range L.numNodesOut).foldl
    (backPropOuterStep L outputGradients learningRate)
    (L.biases, L.weights, List.replicate L.numNodesIn 0)
  ({ L with biases := final.1, weights := final.2.1 }, final.2.2)

/-- Model of the `NeuralNetwork` class: an ordered list of layers. -/
structure NeuralNetwork where
  layers : List Layer
deriving Repr, DecidableEq

/-- Model of `NeuralNetwork::feedForward`: runs the input through each
layer's `calculateOutput` in order, collecting the mutated layers. -/
def NeuralNetwork.feedForward (F : FloatOps) (net : NeuralNetwork) (inputs : List ℚ) :
    NeuralNetwork × List ℚ :=
  let r := net.layers.foldl (fun s L =>
    let p := L.calculateOutput F s.2
    (s.1 ++ [p.1], p.2)) (([] : List Layer), inputs)
  (⟨r.1⟩, r.2)

/-- Model of the backward loop of `NeuralNetwork::train`
(`for (int i = layers.size() - 1; i >= 0; i--) gradients =
layers[i].backPropagate(gradients, learningRate);`): `backwardLoop lr (i+1)`
processes indices `i, i-1, ..., 0`, updating the layer list in place. -/
def backwardLoop (learningRate : ℚ) : ℕ → List Layer → List ℚ → List Layer × List ℚ
  | 0, ls, g => (ls, g)
  | i + 1, ls, g =>
    let r := (ls.getD i default).backPropagate g learningRate
    backwardLoop learningRate i (ls.set i r.1) r.2

/-- Model of `NeuralNetwork::train`: forward pass, then the
`gradients.push_back(results[i] - targets[i])` loop, then the reversed
index loop of `backPropagate` calls.  Returns only the mutated network (the
C++ function returns `void`; no loss value is produced). -/
def NeuralNetwork.train (F : FloatOps) (net : NeuralNetwork)
    (inputs targets : List ℚ) (learningRate : ℚ) : NeuralNetwork :=
  let fr := net.feedForward F inputs
  let gradients := (List.range fr.2.length).foldl
    (fun g i => g ++ [fr.2.getD i 0 - targets.getD i 0]) []
  let bw := backwardLoop learningRate fr.1.layers.length fr.1.layers gradients
  ⟨bw.1⟩

/-- Model of one field of the binary model file.  Each constructor stands
for the native byte encoding of one field written by `file.write`: a
4-byte `int`, the `ActivationType` field (written and read with
`sizeof(ActivationType)` bytes), or a 4-byte `float`.  The on-disk width
of each field is given by `FileItem.byteSize`. -/
inductive FileItem where
  | i32 (n : ℤ)
  | tag (c : Char)
  | f32 (q : ℚ)
deriving Repr, DecidableEq

/-- Fields written for a single layer by `NeuralNetwork::save`:
`numNodesIn`, `numNodesOut`, the activation-tag field, then all weights (in
vector order) and all biases. -/
def Layer.serialize (L : Layer) : List FileItem :=
  [FileItem.i32 L.numNodesIn, FileItem.i32 L.numNodesOut, FileItem.tag L.actType]
    ++ L.weights.map FileItem.f32 ++ L.biases.map FileItem.f32

/-- The full field sequence written by `NeuralNetwork::save` on the success
path: the layer count, then each layer's fields in order. -/
def writeModel (net : NeuralNetwork) : List FileItem :=
  FileItem.i32 net.layers.length :: net.layers.flatMap Layer.serialize

/-- Model of `NeuralNetwork::save`: on open failure it reports and returns,
writing nothing; the network itself is never mutated (returned unchanged in
the first component). -/
def NeuralNetwork.save (net : NeuralNetwork) (openOk : Bool) :
    NeuralNetwork × Option (List FileItem) :=
  if openOk = false then (net, none)
  else (net, some (writeModel net))

/-- Model of `file.read` of one 4-byte `int` field. -/
def readI32 : List FileItem → Option (ℤ × List FileItem)
  | FileItem.i32 n :: rest => some (n, rest)
  | _ => none

/-- Model of `file.read` of the activation-tag field
(`sizeof(ActivationType)` bytes). -/
def readTag : List FileItem → Option (Char × List FileItem)
  | FileItem.tag c :: rest => some (c, rest)
  | _ => none

/-- Model of `file.read` of `n` consecutive 4-byte `float` fields. -/
def readFloats : ℕ → List FileItem → Option (List ℚ × List FileItem)
  | 0, rest => some ([], rest)
  | n + 1, FileItem.f32 q :: rest =>
    (readFloats n rest).map (fun p => (q :: p.1, p.2))
  | _ + 1, _ => none

/-- Model of the layer-reading loop of `NeuralNetwork::load`: for each of
`numLayers` iterations, read `numNodesIn`, `numNodesOut` and the activation
tag, construct the layer, then read `numNodesIn * numNodesOut` weights and
`numNodesOut` biases into it.  A freshly constructed layer has empty
transient buffers.  `none` models a file whose remaining bytes cannot
supply the fields the loop reads. -/
def parseLayers : ℕ → List FileItem → Option (List Layer)
  | 0, _ => some []
  | n + 1, file => do
    let rIn ← readI32 file
    let rOut ← readI32 rIn.2
    let rAct ← readTag rOut.2
    let rW ← readFloats (rIn.1.toNat * rOut.1.toNat) rAct.2
    let rB ← readFloats rOut.1.toNat rW.2
    let rest ← parseLayers n rB.2
    pure ({ numNodesIn := rIn.1.toNat, numNodesOut := rOut.1.toNat, actType := rAct.1,
            weights := rW.1, biases := rB.1, lastInputs := [], lastOutputs := [] } :: rest)

/-- Model of the body of `NeuralNetwork::load` after a successful open:
read the layer count, then run the layer-reading loop (a non-positive count
reads no layers, exactly as the `for` loop does). -/
def parseModel (file : List FileItem) : Option (List Layer) := do
  let rN ← readI32 file
  parseLayers rN.1.toNat rN.2

/-- Model of `NeuralNetwork::load`: on open failure it reports and returns
immediately — before the `layers.clear()` — so the network keeps its prior
layers; on success the layer list is replaced by the layers decoded from
the file. -/
def NeuralNetwork.load (net : NeuralNetwork) (openOk : Bool) (file : List FileItem) :
    Option NeuralNetwork :=
  if openOk = false then some net
  else (parseModel file).map (fun ls => ⟨ls⟩)

/-- A layer as reconstructed by `load`: identical persistent data, with the
transient forward-pass buffers empty (a freshly constructed layer). -/
def Layer.clearTransients (L : Layer) : Layer :=
  { L with lastInputs := [], lastOutputs := [] }

/-- Well-formedness invariant of a layer, maintained by the constructor and
by `load`: the flattened weight matrix has `numNodesIn * numNodesOut`
entries and there is one bias per output unit. -/
def Layer.wf (L : Layer) : Prop :=
  L.weights.length = L.numNodesIn * L.numNodesOut ∧
    L.biases.length = L.numNodesOut

instance (L : Layer) : Decidable L.wf := by unfold Layer.wf; infer_instance

/-- Well-formedness of a network: every layer is well formed. -/
def NeuralNetwork.wf (net : NeuralNetwork) : Prop :=
  ∀ L ∈ net.layers, L.wf

instance (net : NeuralNetwork) : Decidable net.wf := by
  unfold NeuralNetwork.wf; infer_instance

end NN

namespace ImgProc

/-- Model of the `Image` struct produced by the MNIST loader.  The `int
label` field is modelled as `ℤ`. -/
structure Image where
  pixels : List ℚ
  target : List ℚ
  label : ℤ
deriving Repr, DecidableEq

/-- Model of `MnistLoader::swapEndian` on a 32-bit unsigned value: shifts
truncate modulo `2^32` as on `uint32_t`, then the shifted values are masked
and recombined. -/
def swapEndian (val : ℕ) : ℕ :=
  ((val * 2 ^ 24) % 2 ^ 32 &&& 0xFF000000) |||
    ((val * 2 ^ 8) % 2 ^ 32 &&& 0x00FF0000) |||
    (val / 2 ^ 8 &&& 0x0000FF00) |||
    (val / 2 ^ 24 &&& 0x000000FF)

/-- Model of `file.read(reinterpret_cast<char*>(&v), 4)` on a little-endian
host: the four bytes at `off` assemble into a `uint32_t` least significant
byte first. -/
def readLE32 (file : List ℕ) (off : ℕ) : ℕ :=
  file.getD off 0 + file.getD (off + 1) 0 * 2 ^ 8 +
    file.getD (off + 2) 0 * 2 ^ 16 + file.getD (off + 3) 0 * 2 ^ 24

/-- Decoding of one dataset record by the body of the reading loop of
`MnistLoader::load`: record `i` takes its label byte from offset `8 + i` of
the label file and its `imageSize` pixel bytes from offset
`16 + i * imageSize` of the image file (the headers are 16 and 8 bytes and
each loop iteration reads sequentially).  The target vector is assigned 10
zeros and, only when `0 <= label < 10`, the entry at `label` is set to 1;
each pixel byte is normalized by division by 255. -/
def decodeRecord (imgFile lblFile : List ℕ) (imageSize i : ℕ) : Image :=
  let label : ℤ := lblFile.getD (8 + i) 0
  let target := List.replicate 10 (0 : ℚ)
  let target := if 0 ≤ label ∧ label < 10 then target.set label.toNat 1 else target
  let pixels := (List.range imageSize).map (fun j =>
    (imgFile.getD (16 + i * imageSize + j) 0 : ℚ) / 255)
  { pixels := pixels, target := target, label := label }

/-- Model of `MnistLoader::load`.  `imgOpen`/`lblOpen` are the outcomes of
opening the two streams; the files are byte lists.  The function is total:
every failure path returns the empty dataset (the C++ code prints to
`cerr` and returns, it never throws). -/
def MnistLoader.load (imgOpen lblOpen : Bool) (imgFile lblFile : List ℕ) :
    List Image :=
  if imgOpen = false ∨ lblOpen = false then []
  else
    let magicImg := swapEndian (readLE32 imgFile 0)
    let numImg := swapEndian (readLE32 imgFile 4)
    let rows := swapEndian (readLE32 imgFile 8)
    let cols := swapEndian (readLE32 imgFile 12)
    let magicLbl := swapEndian (readLE32 lblFile 0)
    let numLbl := swapEndian (readLE32 lblFile 4)
    if magicImg ≠ 2051 ∨ magicLbl ≠ 2049 then []
    else if numImg ≠ numLbl then []
    else
      let imageSize := rows * cols
      (List.range numImg).map (decodeRecord imgFile lblFile imageSize)

/-- The per-pixel computation of the body of the double loop of
`MnistLoader::scaleImage`: inverse-map destination pixel `(x, y)` to the
source coordinate `(sx, sy)`; zero when the guard
`sx < 0 || sx >= srcW - 1 || sy < 0 || sy >= srcH - 1` fires, otherwise the
bilinear interpolation of the four neighbouring source pixels. -/
def scalePixel (src : List ℚ) (scale : ℚ) (srcW srcH dstW dstH : ℕ) (x y : ℕ) : ℚ :=
  let cxSrc : ℚ := ((srcW : ℚ) - 1) / 2
  let cySrc : ℚ := ((srcH : ℚ) - 1) / 2
  let cxDst : ℚ := ((dstW : ℚ) - 1) / 2
  let cyDst : ℚ := ((dstH : ℚ) - 1) / 2
  let sx : ℚ := ((x : ℚ) - cxDst) / scale + cxSrc
  let sy : ℚ := ((y : ℚ) - cyDst) / scale + cySrc
  if sx < 0 ∨ (srcW : ℚ) - 1 ≤ sx ∨ sy < 0 ∨ (srcH : ℚ) - 1 ≤ sy then 0
  else
    let x0 : ℤ := ⌊sx⌋
    let y0 : ℤ := ⌊sy⌋
    let wx : ℚ := sx - x0
    let wy : ℚ := sy - y0
    let v00 := src.getD (y0 * srcW + x0).toNat 0
    let v10 := src.getD (y0 * srcW + x0 + 1).toNat 0
    let v01 := src.getD ((y0 + 1) * srcW + x0).toNat 0
    let v11 := src.getD ((y0 + 1) * srcW + x0 + 1).toNat 0
    (v00 * (1 - wx) + v10 * wx) * (1 - wy) + (v01 * (1 - wx) + v11 * wx) * wy

/-- Model of `MnistLoader::scaleImage` in the shape of the source: a
destination buffer of `dstW * dstH` zeros whose entry `out[y*dstW + x]` is
assigned by the double loop over `y` (outer) and `x` (inner). -/
def MnistLoader.scaleImage (src : List ℚ) (scale : ℚ)
    (srcW srcH dstW dstH : ℕ) : List ℚ :=
  (List.range dstH).foldl (fun out y =>
    (List.range dstW).foldl (fun out x =>
      out.set (y * dstW + x)
        (scalePixel src scale srcW srcH dstW dstH x y)) out)
    (List.replicate (dstW * dstH) 0)

end ImgProc

/-! General lemmas about the loop shapes used by the embedding: a running
sum accumulated over `List.range`, and element assignment folded over
`List.range`. -/

theorem foldl_add_range (f : ℕ → ℚ) (b : ℚ) (n : ℕ) :
    (List.range n).foldl (fun s i => s + f i) b = b + ∑ i ∈ Finset.range n, f i := by
  induction n with
  | zero => simp
  | succ n ih =>
    rw [List.range_succ, List.foldl_append, ih, Finset.sum_range_succ]
    simp [add_assoc]

theorem foldl_set_length {α : Type} (v : ℕ → α) (idx : ℕ → ℕ) (li : List ℕ)
    (l : List α) :
    (li.foldl (fun o i => o.set (idx i) (v i)) l).length = l.length := by
  induction li generalizing l with
  | nil => rfl
  | cons a t ih => simp [ih]

theorem foldl_set_range_getD {α : Type} (d : α) (v : ℕ → α) (base n : ℕ)
    (l : List α) (j : ℕ) :
    ((List.range n).foldl (fun o i => o.set (base + i) (v i)) l).getD j d =
      if base ≤ j ∧ j < base + n ∧ j < l.length then v (j - base) else l.getD j d := by
  induction n with
  | zero =>
    rw [List.range_zero, List.foldl_nil, if_neg (by omega)]
  | succ n ih =>
    have hlen := foldl_set_length v (fun i => base + i) (List.range n) l
    rw [List.range_succ, List.foldl_append, List.foldl_cons, List.foldl_nil,
      List.getD_eq_getElem?_getD, List.getElem?_set, hlen]
    by_cases hj : base + n = j
    · rw [if_pos hj]
      by_cases hl : base + n < l.length
      · rw [if_pos hl, Option.getD_some,
          if_pos (show base ≤ j ∧ j < base + (n + 1) ∧ j < l.length by omega)]
        congr 1
        omega
      · rw [if_neg hl, Option.getD_none,
          if_neg (show ¬(base ≤ j ∧ j < base + (n + 1) ∧ j < l.length) by omega),
          List.getD_eq_getElem?_getD, List.getElem?_eq_none (by omega), Option.getD_none]
    · rw [if_neg hj, ← List.getD_eq_getElem?_getD, ih]
      have hiff : (base ≤ j ∧ j < base + n ∧ j < l.length) ↔
          (base ≤ j ∧ j < base + (n + 1) ∧ j < l.length) := by omega
      simp only [hiff]

theorem foldl_set_range_getD0 {α : Type} (d : α) (v : ℕ → α) (n : ℕ)
    (l : List α) (j : ℕ) :
    ((List.range n).foldl (fun o i => o.set i (v i)) l).getD j d =
      if j < n ∧ j < l.length then v j else l.getD j d := by
  induction n with
  | zero =>
    rw [List.range_zero, List.foldl_nil, if_neg (by omega)]
  | succ n ih =>
    have hlen := foldl_set_length v (fun i => i) (List.range n) l
    rw [List.range_succ, List.foldl_append, List.foldl_cons, List.foldl_nil,
      List.getD_eq_getElem?_getD, List.getElem?_set, hlen]
    by_cases hj : n = j
    · rw [if_pos hj]
      by_cases hl : n < l.length
      · rw [if_pos hl, Option.getD_some,
          if_pos (show j < n + 1 ∧ j < l.length by omega)]
        rw [hj]
      · rw [if_neg hl, Option.getD_none,
          if_neg (show ¬(j < n + 1 ∧ j < l.length) by omega),
          List.getD_eq_getElem?_getD, List.getElem?_eq_none (by omega), Option.getD_none]
    · rw [if_neg hj, ← List.getD_eq_getElem?_getD, ih]
      have hiff : (j < n ∧ j < l.length) ↔ (j < n + 1 ∧ j < l.length) := by omega
      simp only [hiff]

namespace NN

/-! Characterization of the two loops of `Layer::backPropagate`. -/

theorem backPropInner_lengths (nOut out : ℕ) (delta lr : ℚ) (inp : List ℚ)
    (li : List ℕ) (p : List ℚ × List ℚ) :
    ((li.foldl (backPropInnerStep nOut out delta lr inp) p).1.length = p.1.length) ∧
      ((li.foldl (backPropInnerStep nOut out delta lr inp) p).2.length = p.2.length) := by
  induction li generalizing p with
  | nil => exact ⟨rfl, rfl⟩
  | cons a t ih =>
    rw [List.foldl_cons]
    refine ⟨?_, ?_⟩
    · rw [(ih _).1]; simp [backPropInnerStep]
    · rw [(ih _).2]; simp [backPropInnerStep]

theorem flatIndex_inj {nOut i0 out0 i1 out1 : ℕ} (h0 : out0 < nOut) (h1 : out1 < nOut)
    (h : i0 * nOut + out0 = i1 * nOut + out1) : i0 = i1 ∧ out0 = out1 := by
  have hmod : out0 = out1 := by
    have e0 : (i0 * nOut + out0) % nOut = out0 := by
      rw [Nat.add_comm, Nat.add_mul_mod_self_right, Nat.mod_eq_of_lt h0]
    have e1 : (i1 * nOut + out1) % nOut = out1 := by
      rw [Nat.add_comm, Nat.add_mul_mod_self_right, Nat.mod_eq_of_lt h1]
    rw [← e0, ← e1, h]
  subst hmod
  refine ⟨?_, rfl⟩
  have hpos : 0 < nOut := Nat.lt_of_le_of_lt (Nat.zero_le out0) h0
  exact Nat.eq_of_mul_eq_mul_right hpos (Nat.add_right_cancel h)

theorem backPropInner_fst_getD (nOut out : ℕ) (delta lr : ℚ) (inp : List ℚ)
    (t : List ℚ × List ℚ) (k : ℕ) (i0 out0 : ℕ) (hout : out < nOut) (h0 : out0 < nOut) :
    ((List.range k).foldl (backPropInnerStep nOut out delta lr inp) t).1.getD
        (i0 * nOut + out0) 0 =
      if out0 = out ∧ i0 < k ∧ i0 * nOut + out0 < t.1.length then
        t.1.getD (i0 * nOut + out0) 0 - lr * delta * inp.getD i0 0
      else t.1.getD (i0 * nOut + out0) 0 := by
  induction k with
  | zero =>
    rw [List.range_zero, List.foldl_nil,
      if_neg (by rintro ⟨-, hk, -⟩; exact Nat.not_lt_zero _ hk)]
  | succ k ih =>
    have hplen := (backPropInner_lengths nOut out delta lr inp (List.range k) t).1
    rw [List.range_succ, List.foldl_append, List.foldl_cons, List.foldl_nil]
    simp only [backPropInnerStep]
    rw [List.getD_eq_getElem?_getD, List.getElem?_set, hplen]
    by_cases hj : k * nOut + out = i0 * nOut + out0
    · obtain ⟨hi, ho⟩ := flatIndex_inj hout h0 hj
      rw [if_pos hj]
      by_cases hl : k * nOut + out < t.1.length
      · rw [if_pos hl, Option.getD_some, hj, ih,
          if_neg (by rintro ⟨-, hk, -⟩; omega)]
        rw [if_pos ⟨ho.symm, by omega, by rw [← hj]; exact hl⟩, hi]
      · rw [if_neg hl, Option.getD_none,
          if_neg (by rintro ⟨-, -, hb⟩; rw [← hj] at hb; exact hl hb)]
        have hge : t.1.length ≤ i0 * nOut + out0 := by
          rw [← hj]; exact Nat.le_of_not_lt hl
        rw [List.getD_eq_getElem?_getD, List.getElem?_eq_none hge, Option.getD_none]
    · rw [if_neg hj, ← List.getD_eq_getElem?_getD, ih]
      have hiff : (out0 = out ∧ i0 < k ∧ i0 * nOut + out0 < t.1.length) ↔
          (out0 = out ∧ i0 < k + 1 ∧ i0 * nOut + out0 < t.1.length) := by
        constructor
        · rintro ⟨h1, h2, h3⟩; exact ⟨h1, Nat.lt_succ_of_lt h2, h3⟩
        · rintro ⟨h1, h2, h3⟩
          refine ⟨h1, ?_, h3⟩
          by_cases hik : i0 = k
          · exact absurd (show k * nOut + out = i0 * nOut + out0 by rw [hik, h1]) hj
          · exact Nat.lt_of_le_of_ne (Nat.lt_succ_iff.mp h2) hik
      simp only [hiff]

theorem backPropInner_snd_getD (nOut out : ℕ) (delta lr : ℚ) (inp : List ℚ)
    (t : List ℚ × List ℚ) (k : ℕ) (hout : out < nOut) : ∀ i0 : ℕ,
    ((List.range k).foldl (backPropInnerStep nOut out delta lr inp) t).2.getD i0 0 =
      if i0 < k ∧ i0 < t.2.length then
        t.2.getD i0 0 + delta * t.1.getD (i0 * nOut + out) 0
      else t.2.getD i0 0 := by
  induction k with
  | zero =>
    intro i0
    rw [List.range_zero, List.foldl_nil,
      if_neg (by rintro ⟨hk, -⟩; exact Nat.not_lt_zero _ hk)]
  | succ k ih =>
    intro i0
    have hglen := (backPropInner_lengths nOut out delta lr inp (List.range k) t).2
    rw [List.range_succ, List.foldl_append, List.foldl_cons, List.foldl_nil]
    simp only [backPropInnerStep]
    rw [List.getD_eq_getElem?_getD, List.getElem?_set, hglen]
    have hwk : ((List.range k).foldl (backPropInnerStep nOut out delta lr inp) t).1.getD
        (k * nOut + out) 0 = t.1.getD (k * nOut + out) 0 := by
      rw [backPropInner_fst_getD nOut out delta lr inp t k k out hout hout,
        if_neg (by rintro ⟨-, hk, -⟩; omega)]
    have hgk : ((List.range k).foldl (backPropInnerStep nOut out delta lr inp) t).2.getD
        k 0 = t.2.getD k 0 := by
      rw [ih k, if_neg (by rintro ⟨hk, -⟩; omega)]
    by_cases hj : k = i0
    · rw [if_pos hj]
      by_cases hl : k < t.2.length
      · rw [if_pos hl, Option.getD_some, hwk, hgk,
          if_pos ⟨by omega, by omega⟩, ← hj]
      · rw [if_neg hl, Option.getD_none, if_neg (by rintro ⟨-, hb⟩; omega)]
        have hge : t.2.length ≤ i0 := by omega
        rw [List.getD_eq_getElem?_getD, List.getElem?_eq_none hge, Option.getD_none]
    · rw [if_neg hj, ← List.getD_eq_getElem?_getD, ih i0]
      have hiff : (i0 < k ∧ i0 < t.2.length) ↔ (i0 < k + 1 ∧ i0 < t.2.length) := by omega
      simp only [hiff]

theorem backPropOuter_spec (L : Layer) (og : List ℚ) (lr : ℚ) (b w g : List ℚ) :
    ∀ m : ℕ, m ≤ L.numNodesOut → ∀ r : List ℚ × List ℚ × List ℚ,
    r = (List.range m).foldl (backPropOuterStep L og lr) (b, w, g) →
    (r.1.length = b.length ∧ r.2.1.length = w.length ∧ r.2.2.length = g.length) ∧
    (∀ o : ℕ, r.1.getD o 0 =
      if o < m ∧ o < b.length then b.getD o 0 - lr * L.deltaAt og o else b.getD o 0) ∧
    (∀ i0 out0 : ℕ, out0 < L.numNodesOut →
      r.2.1.getD (i0 * L.numNodesOut + out0) 0 =
        if out0 < m ∧ i0 < L.numNodesIn ∧ i0 * L.numNodesOut + out0 < w.length then
          w.getD (i0 * L.numNodesOut + out0) 0 -
            lr * L.deltaAt og out0 * L.lastInputs.getD i0 0
        else w.getD (i0 * L.numNodesOut + out0) 0) ∧
    (∀ i0 : ℕ, r.2.2.getD i0 0 =
      if i0 < L.numNodesIn ∧ i0 < g.length then
        g.getD i0 0 +
          ∑ o ∈ Finset.range m, L.deltaAt og o * w.getD (i0 * L.numNodesOut + o) 0
      else g.getD i0 0) := by
  intro m
  induction m with
  | zero =>
    intro hm r hr
    subst hr
    rw [List.range_zero, List.foldl_nil]
    refine ⟨⟨rfl, rfl, rfl⟩, ?_, ?_, ?_⟩
    · intro o
      rw [if_neg (by rintro ⟨h, -⟩; exact Nat.not_lt_zero _ h)]
    · intro i0 out0 h0
      rw [if_neg (by rintro ⟨h, -⟩; exact Nat.not_lt_zero _ h)]
    · intro i0
      rw [Finset.range_zero, Finset.sum_empty]
      by_cases hc : i0 < L.numNodesIn ∧ i0 < g.length
      · rw [if_pos hc, add_zero]
      · rw [if_neg hc]
  | succ m ih =>
    intro hm r hr
    subst hr
    rw [List.range_succ, List.foldl_append, List.foldl_cons, List.foldl_nil]
    set p := (List.range m).foldl (backPropOuterStep L og lr) (b, w, g) with hp
    obtain ⟨⟨hL1, hL2, hL3⟩, hbias, hwts, hgrads⟩ := ih (by omega) p hp
    simp only [backPropOuterStep]
    refine ⟨⟨?_, ?_, ?_⟩, ?_, ?_, ?_⟩
    · rw [List.length_set]
      exact hL1
    · rw [(backPropInner_lengths L.numNodesOut m (L.deltaAt og m) lr L.lastInputs
        (List.range L.numNodesIn) p.2).1]
      exact hL2
    · rw [(backPropInner_lengths L.numNodesOut m (L.deltaAt og m) lr L.lastInputs
        (List.range L.numNodesIn) p.2).2]
      exact hL3
    · intro o
      rw [List.getD_eq_getElem?_getD, List.getElem?_set, hL1]
      by_cases hmo : m = o
      · rw [if_pos hmo]
        by_cases hl : m < b.length
        · rw [if_pos hl, Option.getD_some, hbias m,
            if_neg (by rintro ⟨h, -⟩; omega),
            if_pos (show o < m + 1 ∧ o < b.length by omega), hmo]
        · rw [if_neg hl, Option.getD_none, if_neg (by rintro ⟨-, h⟩; omega),
            List.getD_eq_getElem?_getD, List.getElem?_eq_none (by omega), Option.getD_none]
      · rw [if_neg hmo, ← List.getD_eq_getElem?_getD, hbias o]
        have hiff : (o < m ∧ o < b.length) ↔ (o < m + 1 ∧ o < b.length) := by omega
        simp only [hiff]
    · intro i0 out0 h0
      rw [backPropInner_fst_getD L.numNodesOut m (L.deltaAt og m) lr L.lastInputs p.2
        L.numNodesIn i0 out0 (by omega) h0, hL2, hwts i0 out0 h0]
      by_cases h1 : out0 = m
      · subst h1
        by_cases h2 : i0 < L.numNodesIn ∧ i0 * L.numNodesOut + out0 < w.length
        · rw [if_pos ⟨rfl, h2.1, h2.2⟩, if_neg (by rintro ⟨hx, -⟩; omega),
            if_pos ⟨by omega, h2.1, h2.2⟩]
        · rw [if_neg (by rintro ⟨-, hx, hy⟩; exact h2 ⟨hx, hy⟩),
            if_neg (by rintro ⟨hx, -⟩; omega),
            if_neg (by rintro ⟨-, hx, hy⟩; exact h2 ⟨hx, hy⟩)]
      · rw [if_neg (by rintro ⟨hx, -⟩; exact h1 hx)]
        have hiff : (out0 < m ∧ i0 < L.numNodesIn ∧ i0 * L.numNodesOut + out0 < w.length) ↔
            (out0 < m + 1 ∧ i0 < L.numNodesIn ∧ i0 * L.numNodesOut + out0 < w.length) := by
          constructor
          · rintro ⟨ha, hb', hc⟩; exact ⟨by omega, hb', hc⟩
          · rintro ⟨ha, hb', hc⟩; exact ⟨by omega, hb', hc⟩
        simp only [hiff]
    · intro i0
      rw [backPropInner_snd_getD L.numNodesOut m (L.deltaAt og m) lr L.lastInputs p.2
        L.numNodesIn (by omega) i0, hL3, hgrads i0]
      have hw0 : p.2.1.getD (i0 * L.numNodesOut + m) 0 =
          w.getD (i0 * L.numNodesOut + m) 0 := by
        rw [hwts i0 m (by omega), if_neg (by rintro ⟨hx, -⟩; omega)]
      rw [hw0]
      by_cases hc : i0 < L.numNodesIn ∧ i0 < g.length
      · rw [if_pos hc, if_pos hc, if_pos hc, Finset.sum_range_succ]
        ring
      · rw [if_neg hc, if_neg hc, if_neg hc]

theorem getD_replicate_zero (n i : ℕ) : (List.replicate n (0 : ℚ)).getD i 0 = 0 := by
  rw [List.getD_eq_getElem?_getD, List.getElem?_replicate]
  split <;> rfl

/-- C4: for every layer with `lastOutputs` and `lastInputs` set by a prior
forward call, `backPropagate(outputGradients, learningRate)` computes for
each output unit `o` the value
`delta = outputGradients[o] * derivative(lastOutputs[o])`, subtracts
`learningRate*delta` from `bias[o]`, accumulates
`inputGradients[i] += delta * weight[i][o]` using the pre-update weight
value, then sets `weight[i][o] -= learningRate*delta*lastInputs[i]`, and
returns `inputGradients` of length `inputWidth`. -/
theorem C4_backPropagate_spec (L : Layer) (og : List ℚ) (lr : ℚ)
    (hw : L.weights.length = L.numNodesIn * L.numNodesOut)
    (hb : L.biases.length = L.numNodesOut) :
    ((L.backPropagate og lr).2.length = L.numNodesIn) ∧
    (∀ o < L.numNodesOut, (L.backPropagate og lr).1.biases.getD o 0 =
      L.biases.getD o 0 - lr * L.deltaAt og o) ∧
    (∀ i < L.numNodesIn, ∀ o < L.numNodesOut,
      (L.backPropagate og lr).1.weights.getD (i * L.numNodesOut + o) 0 =
        L.weights.getD (i * L.numNodesOut + o) 0 -
          lr * L.deltaAt og o * L.lastInputs.getD i 0) ∧
    (∀ i < L.numNodesIn, (L.backPropagate og lr).2.getD i 0 =
      ∑ o ∈ Finset.range L.numNodesOut,
        L.deltaAt og o * L.weights.getD (i * L.numNodesOut + o) 0) := by
  obtain ⟨⟨hl1, hl2, hl3⟩, hbias, hwts, hgrads⟩ :=
    backPropOuter_spec L og lr L.biases L.weights (List.replicate L.numNodesIn 0)
      L.numNodesOut le_rfl _ rfl
  simp only [Layer.backPropagate]
  refine ⟨?_, ?_, ?_, ?_⟩
  · rw [hl3, List.length_replicate]
  · intro o ho
    rw [hbias o, if_pos ⟨ho, by omega⟩]
  · intro i hi o ho
    have hidx : i * L.numNodesOut + o < L.weights.length := by
      rw [hw]
      calc i * L.numNodesOut + o < i * L.numNodesOut + L.numNodesOut :=
            Nat.add_lt_add_left ho _
        _ = (i + 1) * L.numNodesOut := by ring
        _ ≤ L.numNodesIn * L.numNodesOut := Nat.mul_le_mul_right _ (by omega)
    rw [hwts i o ho, if_pos ⟨ho, hi, hidx⟩]
  · intro i hi
    rw [hgrads i, if_pos ⟨hi, by rw [List.length_replicate]; exact hi⟩,
      getD_replicate_zero, zero_add]

/-- Concrete two-input one-output ReLU layer used by witnesses. -/
def wLayer : Layer := ⟨2, 1, 'r', [1, 2], [3], [4, 5], [6]⟩

/-- Concrete interpretation of the abstract math routines used by
witnesses. -/
def wOps : FloatOps := ⟨fun q => q, fun q => q⟩

/-- Witness for C4 at a concrete layer. -/
theorem C4_backPropagate_spec_witness :
    (wLayer.weights.length = wLayer.numNodesIn * wLayer.numNodesOut) ∧
    (wLayer.biases.length = wLayer.numNodesOut) ∧
    (((wLayer.backPropagate [1] (1/2)).2.length = wLayer.numNodesIn) ∧
    (∀ o < wLayer.numNodesOut, (wLayer.backPropagate [1] (1/2)).1.biases.getD o 0 =
      wLayer.biases.getD o 0 - (1/2) * wLayer.deltaAt [1] o) ∧
    (∀ i < wLayer.numNodesIn, ∀ o < wLayer.numNodesOut,
      (wLayer.backPropagate [1] (1/2)).1.weights.getD (i * wLayer.numNodesOut + o) 0 =
        wLayer.weights.getD (i * wLayer.numNodesOut + o) 0 -
          (1/2) * wLayer.deltaAt [1] o * wLayer.lastInputs.getD i 0) ∧
    (∀ i < wLayer.numNodesIn, (wLayer.backPropagate [1] (1/2)).2.getD i 0 =
      ∑ o ∈ Finset.range wLayer.numNodesOut,
        wLayer.deltaAt [1] o * wLayer.weights.getD (i * wLayer.numNodesOut + o) 0)) :=
  ⟨by decide, by decide, C4_backPropagate_spec wLayer [1] (1/2) (by decide) (by decide)⟩

/-- C5: for every input sequence of exactly `inputWidth` floats,
`Layer.calculateOutput` returns a sequence of `outputWidth` floats where
`output[o] = activation(bias[o] + Σ_i inputs[i] * weight[i][o])` with the
flattened weight indexed at `in*outputWidth + out`, and as a side effect
stores the inputs as `lastInputs` and the activated result as
`lastOutputs`. -/
theorem C5_calculateOutput_spec (F : FloatOps) (L : Layer) (inputs : List ℚ)
    (hlen : inputs.length = L.numNodesIn) :
    ((L.calculateOutput F inputs).2.length = L.numNodesOut) ∧
    (∀ o < L.numNodesOut, (L.calculateOutput F inputs).2.getD o 0 =
      activation F L.actType (L.biases.getD o 0 +
        ∑ i ∈ Finset.range L.numNodesIn,
          inputs.getD i 0 * L.weights.getD (i * L.numNodesOut + o) 0)) ∧
    ((L.calculateOutput F inputs).1 =
      { L with lastInputs := inputs, lastOutputs := (L.calculateOutput F inputs).2 }) := by
  refine ⟨?_, ?_, ?_⟩
  · simp only [Layer.calculateOutput]
    rw [foldl_set_length
      (fun out => activation F L.actType ((List.range L.numNodesIn).foldl
        (fun sum inn => sum + inputs.getD inn 0 * L.weights.getD (inn * L.numNodesOut + out) 0)
        (L.biases.getD out 0)))
      (fun i => i) (List.range L.numNodesOut) (List.replicate L.numNodesOut 0),
      List.length_replicate]
  · intro o ho
    simp only [Layer.calculateOutput]
    rw [foldl_set_range_getD0 (0 : ℚ)
      (fun out => activation F L.actType ((List.range L.numNodesIn).foldl
        (fun sum inn => sum + inputs.getD inn 0 * L.weights.getD (inn * L.numNodesOut + out) 0)
        (L.biases.getD out 0)))
      L.numNodesOut (List.replicate L.numNodesOut 0) o,
      List.length_replicate, if_pos ⟨ho, ho⟩, foldl_add_range]
  · simp only [Layer.calculateOutput]

/-- Witness for C5 at a concrete layer and input. -/
theorem C5_calculateOutput_spec_witness :
    (([(7 : ℚ), 8]).length = wLayer.numNodesIn) ∧
    (((wLayer.calculateOutput wOps [7, 8]).2.length = wLayer.numNodesOut) ∧
    (∀ o < wLayer.numNodesOut, (wLayer.calculateOutput wOps [7, 8]).2.getD o 0 =
      activation wOps wLayer.actType (wLayer.biases.getD o 0 +
        ∑ i ∈ Finset.range wLayer.numNodesIn,
          ([(7 : ℚ), 8]).getD i 0 * wLayer.weights.getD (i * wLayer.numNodesOut + o) 0)) ∧
    ((wLayer.calculateOutput wOps [7, 8]).1 =
      { wLayer with lastInputs := [7, 8],
                    lastOutputs := (wLayer.calculateOutput wOps [7, 8]).2 })) :=
  ⟨by decide, C5_calculateOutput_spec wOps wLayer [7, 8] (by decide)⟩

/-! Equivalence of the index-based backward loop of `train` with its
structural description, and of the `push_back` loop with a map. -/

theorem foldl_append_range {α : Type} (f : ℕ → α) (init : List α) (n : ℕ) :
    (List.range n).foldl (fun g i => g ++ [f i]) init = init ++ (List.range n).map f := by
  induction n with
  | zero => simp
  | succ n ih =>
    rw [List.range_succ, List.foldl_append, List.foldl_cons, List.foldl_nil, ih,
      List.map_append, List.map_cons, List.map_nil, List.append_assoc]

/-- Gradient initialization as the spec states it: one entry per output
unit of the forward result, `g[k] = results[k] - targets[k]`, with no
`1/N` or `0.5` scaling. -/
def initialGradients (results targets : List ℚ) : List ℚ :=
  (List.range results.length).map (fun k => results.getD k 0 - targets.getD k 0)

/-- Backward sweep as the spec states it: one `backPropagate` per layer in
reverse layer order, each call replacing the gradient vector with the
returned input gradients; returns the updated layers in their original
order together with the final gradient vector. -/
def backwardSweep (learningRate : ℚ) : List Layer → List ℚ → List Layer × List ℚ
  | [], g => ([], g)
  | L :: rest, g =>
    let r := backwardSweep learningRate rest g
    let s := L.backPropagate r.2 learningRate
    (s.1 :: r.1, s.2)

theorem backwardLoop_append (lr : ℚ) : ∀ (n : ℕ) (ls tail : List Layer) (g : List ℚ),
    n ≤ ls.length →
    backwardLoop lr n (ls ++ tail) g =
      ((backwardLoop lr n ls g).1 ++ tail, (backwardLoop lr n ls g).2) := by
  intro n
  induction n with
  | zero =>
    intro ls tail g h
    simp only [backwardLoop]
  | succ n ih =>
    intro ls tail g h
    simp only [backwardLoop]
    have h1 : (ls ++ tail).getD n default = ls.getD n default := by
      rw [List.getD_eq_getElem?_getD, List.getElem?_append_left (by omega),
        ← List.getD_eq_getElem?_getD]
    have h2 : ∀ x : Layer, (ls ++ tail).set n x = ls.set n x ++ tail := fun x =>
      List.set_append_left _ _ (by omega)
    rw [h1, h2, ih _ tail _ (by rw [List.length_set]; omega)]

theorem backwardSweep_append (lr : ℚ) (ys : List Layer) (L : Layer) (g : List ℚ) :
    backwardSweep lr (ys ++ [L]) g =
      ((backwardSweep lr ys ((L.backPropagate g lr).2)).1 ++ [(L.backPropagate g lr).1],
        (backwardSweep lr ys ((L.backPropagate g lr).2)).2) := by
  induction ys generalizing g with
  | nil => simp only [backwardSweep, List.nil_append]
  | cons y ys ih =>
    rw [List.cons_append]
    simp only [backwardSweep]
    rw [ih g]
    simp

theorem backwardLoop_eq_sweep (lr : ℚ) : ∀ (ls : List Layer) (g : List ℚ),
    backwardLoop lr ls.length ls g = backwardSweep lr ls g := by
  intro ls
  induction ls using List.reverseRecOn with
  | nil => intro g; rfl
  | append_singleton ys L ih =>
    intro g
    have hlen : (ys ++ [L]).length = ys.length + 1 := by
      rw [List.length_append, List.length_singleton]
    rw [hlen]
    simp only [backwardLoop]
    have h1 : (ys ++ [L]).getD ys.length default = L := by
      rw [List.getD_eq_getElem?_getD, List.getElem?_concat_length]
      rfl
    have h2 : ∀ x : Layer, (ys ++ [L]).set ys.length x = ys ++ [x] := by
      intro x
      rw [List.set_append_right _ _ (Nat.le_refl _)]
      simp
    rw [h1, h2, backwardLoop_append lr ys.length ys _ _ (Nat.le_refl _), ih _,
      backwardSweep_append]

/-- C6: for every network, `Network.train(inputs, targets, learningRate)`
performs exactly a `feedForward` producing `results`, then the initial
gradient `g[k] = results[k] - targets[k]` per output unit (unscaled), then
one `backPropagate` per layer in reverse layer order, each call replacing
`g` with the returned `inputGradients`; its only effect is the in-place
layer mutation (the result is just the network, no loss value is
returned). -/
theorem C6_train_spec (F : FloatOps) (net : NeuralNetwork)
    (inputs targets : List ℚ) (lr : ℚ) :
    net.train F inputs targets lr =
      ⟨(backwardSweep lr (net.feedForward F inputs).1.layers
          (initialGradients (net.feedForward F inputs).2 targets)).1⟩ := by
  simp only [NeuralNetwork.train, initialGradients]
  rw [foldl_append_range (fun i => (net.feedForward F inputs).2.getD i 0 - targets.getD i 0)
      [] (net.feedForward F inputs).2.length, List.nil_append,
    backwardLoop_eq_sweep]

/-! Round trip of the binary model format. -/

theorem readFloats_append (qs : List ℚ) (rest : List FileItem) :
    readFloats qs.length (qs.map FileItem.f32 ++ rest) = some (qs, rest) := by
  induction qs with
  | nil => rfl
  | cons q t ih => simp [readFloats, ih]

theorem readFloats_append_of_length (n : ℕ) (qs : List ℚ) (rest : List FileItem)
    (h : qs.length = n) :
    readFloats n (qs.map FileItem.f32 ++ rest) = some (qs, rest) := by
  subst h
  exact readFloats_append qs rest

theorem parseLayers_serialize : ∀ ls : List Layer, (∀ L ∈ ls, L.wf) →
    ∀ rest : List FileItem,
    parseLayers ls.length (ls.flatMap Layer.serialize ++ rest) =
      some (ls.map Layer.clearTransients) := by
  intro ls
  induction ls with
  | nil => intro _ rest; rfl
  | cons L t ih =>
    intro hwf rest
    obtain ⟨hw, hb⟩ := hwf L (List.mem_cons_self _ _)
    have ht := ih (fun x hx => hwf x (List.mem_cons_of_mem _ hx)) rest
    show parseLayers (t.length + 1) ((L :: t).flatMap Layer.serialize ++ rest) = _
    simp only [List.flatMap_cons, Layer.serialize, List.append_assoc, List.cons_append,
      List.nil_append, parseLayers, readI32, readTag, Option.bind_eq_bind,
      Option.some_bind, Int.toNat_natCast]
    rw [readFloats_append_of_length _ L.weights _ hw]
    simp only [Option.some_bind]
    rw [readFloats_append_of_length _ L.biases _ hb]
    simp only [Option.some_bind, ht]
    rfl

theorem parseModel_writeModel (net : NeuralNetwork) (hwf : net.wf) :
    parseModel (writeModel net) = some (net.layers.map Layer.clearTransients) := by
  have h := parseLayers_serialize net.layers hwf []
  rw [List.append_nil] at h
  simp only [parseModel, writeModel, readI32, Option.bind_eq_bind, Option.some_bind]
  rw [show ((net.layers.length : ℤ)).toNat = net.layers.length from rfl]
  exact h

/-- On-disk width in bytes of each field, exactly as the source writes and
reads it: `sizeof(int)` = 4 for the `int` fields, `sizeof(float)` = 4 for
the weight and bias fields, and `sizeof(ActivationType)` for the
activation tag — which is also 4, because `ActivationType` is a scoped
enum with no explicit underlying type, so its underlying type is `int`. -/
def FileItem.byteSize : FileItem → ℕ
  | FileItem.i32 _ => 4
  | FileItem.tag _ => 4
  | FileItem.f32 _ => 4

/-- Width in bytes that §6 of the spec prescribes for each field of the
model file: 4-byte `int32` counts and widths, a 1-byte `activationTag`,
and 4-byte `float32` weights and biases. -/
def specFieldSize : FileItem → ℕ
  | FileItem.i32 _ => 4
  | FileItem.tag _ => 1
  | FileItem.f32 _ => 4

/-- Concrete one-layer network used by witnesses and counterexamples. -/
def wNet : NeuralNetwork := ⟨[wLayer]⟩

/-- C3: the claim prescribes an `int32` layer count, per layer two `int32`
widths, a 1-byte activation tag, then `inputWidth*outputWidth` `float32`
weights and `outputWidth` `float32` biases, with `save` and `load` using
exactly this field order and these sizes.  The field order is what the
program writes and reads back — parsing the written file succeeds and
recovers the layer — but the tag width is not: the tag field is written
and read with `file.write/read(..., sizeof(ActivationType))`, and
`ActivationType` is a scoped enum whose underlying type defaults to
`int`, so the tag field occupies 4 bytes on disk, not the 1 byte the
claim and the spec prescribe.  Evaluated at the concrete one-layer
network `wNet`, whose model file holds seven fields: every written field
is 4 bytes wide, while the prescribed widths would make the fourth field
(the activation tag) 1 byte, so the written sizes differ from the
prescribed sizes. -/
theorem C3_tag_field_width :
    ((writeModel wNet).map FileItem.byteSize = [4, 4, 4, 4, 4, 4, 4] ∧
      parseModel (writeModel wNet) = some (wNet.layers.map Layer.clearTransients)) ∧
    (writeModel wNet).map specFieldSize = [4, 4, 4, 1, 4, 4, 4] ∧
    (writeModel wNet).map FileItem.byteSize ≠ (writeModel wNet).map specFieldSize :=
  ⟨⟨by decide, parseModel_writeModel wNet (by decide)⟩, by decide, by decide⟩

/-! The forward pass does not read the transient buffers, so a layer
reconstructed by `load` (with cleared transients) produces the same
outputs. -/

theorem calculateOutput_snd_clearTransients (F : FloatOps) (L : Layer) (x : List ℚ) :
    ((L.clearTransients).calculateOutput F x).2 = (L.calculateOutput F x).2 := rfl

theorem feedForward_aux_clearTransients (F : FloatOps) : ∀ (ls : List Layer) (x : List ℚ)
    (a b : List Layer),
    ((ls.map Layer.clearTransients).foldl
      (fun s L => (s.1 ++ [(L.calculateOutput F s.2).1], (L.calculateOutput F s.2).2))
      (a, x)).2 =
    (ls.foldl
      (fun s L => (s.1 ++ [(L.calculateOutput F s.2).1], (L.calculateOutput F s.2).2))
      (b, x)).2 := by
  intro ls
  induction ls with
  | nil => intro x a b; rfl
  | cons L t ih =>
    intro x a b
    rw [List.map_cons, List.foldl_cons, List.foldl_cons]
    have hc : ((Layer.clearTransients L).calculateOutput F x).2 =
        (L.calculateOutput F x).2 := rfl
    rw [hc]
    exact ih _ _ _

theorem feedForward_snd_clearTransients (F : FloatOps) (ls : List Layer) (x : List ℚ) :
    (NeuralNetwork.feedForward F ⟨ls.map Layer.clearTransients⟩ x).2 =
      (NeuralNetwork.feedForward F ⟨ls⟩ x).2 := by
  simp only [NeuralNetwork.feedForward]
  exact feedForward_aux_clearTransients F ls x [] []

/-- C9: for every network and every fixed input vector, saving the network
and loading the file back yields a network whose `feedForward` on that
input produces output identical to the original network's.  (The embedding
models float values exactly; the C++ round trip copies each weight and
bias byte-for-byte and `feedForward` is deterministic, so value identity
here corresponds to bit-identical output.) -/
theorem C9_save_load_feedForward (F : FloatOps) (net prior : NeuralNetwork)
    (hwf : net.wf) (x : List ℚ) :
    ∃ file rt, (net.save true).2 = some file ∧ prior.load true file = some rt ∧
      (rt.feedForward F x).2 = (net.feedForward F x).2 := by
  refine ⟨writeModel net, ⟨net.layers.map Layer.clearTransients⟩, rfl, ?_, ?_⟩
  · have h : prior.load true (writeModel net) =
        (parseModel (writeModel net)).map (fun ls => ⟨ls⟩) := rfl
    rw [h, parseModel_writeModel net hwf]
    rfl
  · exact feedForward_snd_clearTransients F net.layers x

/-- Witness for C9 at a concrete one-layer network and input. -/
theorem C9_save_load_feedForward_witness :
    wNet.wf ∧ ∃ file rt, (wNet.save true).2 = some file ∧
      wNet.load true file = some rt ∧
      (rt.feedForward wOps [1, 2]).2 = (wNet.feedForward wOps [1, 2]).2 :=
  ⟨by decide, C9_save_load_feedForward wOps wNet wNet (by decide) [1, 2]⟩

/-- C1 counterexample: the claim says a failed-open `load` leaves the layer
list empty; on a network that already has one layer, a failed-open `load`
returns with the network untouched, so its layer list is not empty. -/
theorem C1_counterexample :
    wNet.load false [] = some wNet ∧ wNet.layers ≠ [] := ⟨rfl, by decide⟩

/-- C1 (amended): on file-open failure `save` reports and writes nothing,
leaving the network unchanged, and `load` returns before its
`layers.clear()`, likewise leaving the network unchanged — the prior layer
list is retained, not emptied. -/
theorem C1_open_failure (net : NeuralNetwork) (file : List FileItem) :
    net.save false = (net, none) ∧ net.load false file = some net :=
  ⟨rfl, rfl⟩

end NN

namespace ImgProc

/-! Characterization of the MNIST decoder. -/

theorem getD_map_range {α : Type} (d : α) (f : ℕ → α) (n i : ℕ) (h : i < n) :
    ((List.range n).map f).getD i d = f i := by
  rw [List.getD_eq_getElem?_getD, List.getElem?_map, List.getElem?_range h]
  rfl

theorem getD_le_of_all255 (l : List ℕ) (h : ∀ b ∈ l, b ≤ 255) (i : ℕ) :
    l.getD i 0 ≤ 255 := by
  by_cases hi : i < l.length
  · rw [List.getD_eq_getElem?_getD, List.getElem?_eq_getElem hi]
    exact h _ (List.getElem_mem hi)
  · rw [List.getD_eq_getElem?_getD, List.getElem?_eq_none (by omega)]
    exact Nat.zero_le _

/-- On valid headers, `MnistLoader.load` decodes record `i` for every
`i < numImg`, in file order. -/
theorem load_eq_map_decodeRecord (imgFile lblFile : List ℕ) (n rows cols : ℕ)
    (himg : swapEndian (readLE32 imgFile 0) = 2051)
    (hlbl : swapEndian (readLE32 lblFile 0) = 2049)
    (hni : swapEndian (readLE32 imgFile 4) = n)
    (hnl : swapEndian (readLE32 lblFile 4) = n)
    (hrows : swapEndian (readLE32 imgFile 8) = rows)
    (hcols : swapEndian (readLE32 imgFile 12) = cols) :
    MnistLoader.load true true imgFile lblFile =
      (List.range n).map (decodeRecord imgFile lblFile (rows * cols)) := by
  simp only [MnistLoader.load, himg, hlbl, hni, hnl, hrows, hcols]
  simp

theorem decodeRecord_label_target (imgFile lblFile : List ℕ) (sz i : ℕ) :
    (decodeRecord imgFile lblFile sz i).label = (lblFile.getD (8 + i) 0 : ℤ) ∧
    (decodeRecord imgFile lblFile sz i).target =
      (if 0 ≤ (lblFile.getD (8 + i) 0 : ℤ) ∧ (lblFile.getD (8 + i) 0 : ℤ) < 10 then
        (List.replicate 10 (0 : ℚ)).set (lblFile.getD (8 + i) 0 : ℤ).toNat 1
      else List.replicate 10 (0 : ℚ)) ∧
    (decodeRecord imgFile lblFile sz i).pixels =
      (List.range sz).map (fun j => (imgFile.getD (16 + i * sz + j) 0 : ℚ) / 255) := by
  refine ⟨rfl, ?_, rfl⟩
  simp only [decodeRecord]

/-- C8: whenever the image magic number is not 2051, or the label magic
number is not 2049, or the image count differs from the label count,
`MnistLoader.load` returns the empty dataset (the model is a total
function: the code reports to `cerr` and returns normally, it never
throws, and never returns a partial dataset in these cases). -/
theorem C8_load_validation (imgFile lblFile : List ℕ)
    (h : swapEndian (readLE32 imgFile 0) ≠ 2051 ∨
      swapEndian (readLE32 lblFile 0) ≠ 2049 ∨
      swapEndian (readLE32 imgFile 4) ≠ swapEndian (readLE32 lblFile 4)) :
    MnistLoader.load true true imgFile lblFile = [] := by
  simp only [MnistLoader.load]
  set mi := swapEndian (readLE32 imgFile 0) with hmi
  set ml := swapEndian (readLE32 lblFile 0) with hml
  set ni := swapEndian (readLE32 imgFile 4) with hni
  set nl := swapEndian (readLE32 lblFile 4) with hnl
  rw [if_neg (by simp)]
  by_cases hm : mi ≠ 2051 ∨ ml ≠ 2049
  · rw [if_pos hm]
  · rw [if_neg hm]
    have hc : ni ≠ nl := by
      rcases h with h | h | h
      · exact absurd (Or.inl h) hm
      · exact absurd (Or.inr h) hm
      · exact h
    rw [if_pos hc]

/-- Witness for C8: two empty files have image magic 0, not 2051. -/
theorem C8_load_validation_witness :
    (swapEndian (readLE32 [] 0) ≠ 2051 ∨ swapEndian (readLE32 [] 0) ≠ 2049 ∨
      swapEndian (readLE32 [] 4) ≠ swapEndian (readLE32 [] 4)) ∧
    MnistLoader.load true true [] [] = [] :=
  ⟨by decide, C8_load_validation [] [] (by decide)⟩

theorem getD_set_replicate_self (b : ℕ) (hb : b < 10) :
    ((List.replicate 10 (0 : ℚ)).set b 1).getD b 0 = 1 := by
  rw [List.getD_eq_getElem?_getD, List.getElem?_set, if_pos rfl, List.length_replicate,
    if_pos hb]
  rfl

theorem getD_set_replicate_ne (b k : ℕ) (hk : k ≠ b) :
    ((List.replicate 10 (0 : ℚ)).set b 1).getD k 0 = 0 := by
  rw [List.getD_eq_getElem?_getD, List.getElem?_set, if_neg (fun hh => hk hh.symm),
    ← List.getD_eq_getElem?_getD]
  exact NN.getD_replicate_zero 10 k

/-- C7: for every well-formed image/label file pair (valid magic numbers,
matching counts, label bytes in `[0, 9]`, byte values at most 255),
`Decoder.load` returns one Sample per record in file order; each pixel
value is the raw byte divided by 255 and lies in `[0, 1]`, the target is a
10-wide vector that is exactly one-hot at the index given by the label
byte, and the label is in `[0, 9]`. -/
theorem C7_decoder_load (imgFile lblFile : List ℕ) (n rows cols : ℕ)
    (himg : swapEndian (readLE32 imgFile 0) = 2051)
    (hlbl : swapEndian (readLE32 lblFile 0) = 2049)
    (hni : swapEndian (readLE32 imgFile 4) = n)
    (hnl : swapEndian (readLE32 lblFile 4) = n)
    (hrows : swapEndian (readLE32 imgFile 8) = rows)
    (hcols : swapEndian (readLE32 imgFile 12) = cols)
    (hlabels : ∀ i, i < n → lblFile.getD (8 + i) 0 ≤ 9)
    (hbytes : ∀ b ∈ imgFile, b ≤ 255) :
    (MnistLoader.load true true imgFile lblFile).length = n ∧
    (∀ i, i < n →
      (MnistLoader.load true true imgFile lblFile).getD i ⟨[], [], 0⟩ =
        decodeRecord imgFile lblFile (rows * cols) i ∧
      (decodeRecord imgFile lblFile (rows * cols) i).label =
        (lblFile.getD (8 + i) 0 : ℤ) ∧
      0 ≤ (decodeRecord imgFile lblFile (rows * cols) i).label ∧
      (decodeRecord imgFile lblFile (rows * cols) i).label ≤ 9 ∧
      (decodeRecord imgFile lblFile (rows * cols) i).pixels.length = rows * cols ∧
      (∀ j, j < rows * cols →
        (decodeRecord imgFile lblFile (rows * cols) i).pixels.getD j 0 =
          (imgFile.getD (16 + i * (rows * cols) + j) 0 : ℚ) / 255 ∧
        0 ≤ (decodeRecord imgFile lblFile (rows * cols) i).pixels.getD j 0 ∧
        (decodeRecord imgFile lblFile (rows * cols) i).pixels.getD j 0 ≤ 1) ∧
      (decodeRecord imgFile lblFile (rows * cols) i).target.length = 10 ∧
      (decodeRecord imgFile lblFile (rows * cols) i).target.getD
        (lblFile.getD (8 + i) 0) 0 = 1 ∧
      (∀ k, k < 10 → k ≠ lblFile.getD (8 + i) 0 →
        (decodeRecord imgFile lblFile (rows * cols) i).target.getD k 0 = 0)) := by
  have hload := load_eq_map_decodeRecord imgFile lblFile n rows cols
    himg hlbl hni hnl hrows hcols
  constructor
  · rw [hload, List.length_map, List.length_range]
  · intro i hi
    have hgd : (MnistLoader.load true true imgFile lblFile).getD i ⟨[], [], 0⟩ =
        decodeRecord imgFile lblFile (rows * cols) i := by
      rw [hload]
      exact getD_map_range _ _ n i hi
    have hlab := hlabels i hi
    have hpix : (decodeRecord imgFile lblFile (rows * cols) i).pixels =
        (List.range (rows * cols)).map
          (fun j => (imgFile.getD (16 + i * (rows * cols) + j) 0 : ℚ) / 255) := rfl
    have hcond : (0 : ℤ) ≤ (lblFile.getD (8 + i) 0 : ℤ) ∧
        (lblFile.getD (8 + i) 0 : ℤ) < 10 := by
      constructor
      · exact_mod_cast Nat.zero_le _
      · exact_mod_cast Nat.lt_succ_of_le hlab
    have htgt : (decodeRecord imgFile lblFile (rows * cols) i).target =
        (List.replicate 10 (0 : ℚ)).set (lblFile.getD (8 + i) 0) 1 := by
      show (if (0 : ℤ) ≤ (lblFile.getD (8 + i) 0 : ℤ) ∧ (lblFile.getD (8 + i) 0 : ℤ) < 10
          then (List.replicate 10 (0 : ℚ)).set
            ((lblFile.getD (8 + i) 0 : ℤ)).toNat 1
          else List.replicate 10 (0 : ℚ)) = _
      rw [if_pos hcond]
      rfl
    refine ⟨hgd, rfl, ?_, ?_, ?_, ?_, ?_, ?_, ?_⟩
    · show (0 : ℤ) ≤ (lblFile.getD (8 + i) 0 : ℤ)
      exact_mod_cast Nat.zero_le _
    · show (lblFile.getD (8 + i) 0 : ℤ) ≤ 9
      exact_mod_cast hlab
    · rw [hpix, List.length_map, List.length_range]
    · intro j hj
      rw [hpix, getD_map_range _ _ _ j hj]
      have h255 := getD_le_of_all255 imgFile hbytes (16 + i * (rows * cols) + j)
      refine ⟨rfl, ?_, ?_⟩
      · exact div_nonneg (by exact_mod_cast Nat.zero_le _) (by norm_num)
      · rw [div_le_one (by norm_num)]
        calc (imgFile.getD (16 + i * (rows * cols) + j) 0 : ℚ) ≤ 255 := by
              exact_mod_cast h255
          _ = 255 := rfl
    · rw [htgt, List.length_set, List.length_replicate]
    · rw [htgt]
      exact getD_set_replicate_self _ (by omega)
    · intro k hk hne
      rw [htgt]
      exact getD_set_replicate_ne _ k hne

/-- C10: a record whose label byte lies outside `[0, 9]` still produces a
Sample; its target stays the all-zero 10-wide vector (the guarded one-hot
store is skipped, so no out-of-bounds write occurs) and the raw label byte
is kept. -/
theorem C10_bad_label (imgFile lblFile : List ℕ) (n rows cols i : ℕ)
    (himg : swapEndian (readLE32 imgFile 0) = 2051)
    (hlbl : swapEndian (readLE32 lblFile 0) = 2049)
    (hni : swapEndian (readLE32 imgFile 4) = n)
    (hnl : swapEndian (readLE32 lblFile 4) = n)
    (hrows : swapEndian (readLE32 imgFile 8) = rows)
    (hcols : swapEndian (readLE32 imgFile 12) = cols)
    (hi : i < n) (hbad : 10 ≤ lblFile.getD (8 + i) 0) :
    (MnistLoader.load true true imgFile lblFile).length = n ∧
    (MnistLoader.load true true imgFile lblFile).getD i ⟨[], [], 0⟩ =
      decodeRecord imgFile lblFile (rows * cols) i ∧
    (decodeRecord imgFile lblFile (rows * cols) i).label =
      (lblFile.getD (8 + i) 0 : ℤ) ∧
    (decodeRecord imgFile lblFile (rows * cols) i).target = List.replicate 10 0 ∧
    (decodeRecord imgFile lblFile (rows * cols) i).target.length = 10 := by
  have hload := load_eq_map_decodeRecord imgFile lblFile n rows cols
    himg hlbl hni hnl hrows hcols
  have htgt : (decodeRecord imgFile lblFile (rows * cols) i).target =
      List.replicate 10 (0 : ℚ) := by
    show (if (0 : ℤ) ≤ (lblFile.getD (8 + i) 0 : ℤ) ∧ (lblFile.getD (8 + i) 0 : ℤ) < 10
        then (List.replicate 10 (0 : ℚ)).set
          ((lblFile.getD (8 + i) 0 : ℤ)).toNat 1
        else List.replicate 10 (0 : ℚ)) = _
    rw [if_neg ?hneg]
    case hneg =>
      rintro ⟨-, hlt⟩
      have : (10 : ℤ) ≤ (lblFile.getD (8 + i) 0 : ℤ) := by exact_mod_cast hbad
      omega
  refine ⟨?_, ?_, rfl, htgt, ?_⟩
  · rw [hload, List.length_map, List.length_range]
  · rw [hload]
    exact getD_map_range _ _ n i hi
  · rw [htgt, List.length_replicate]

/-- Concrete well-formed one-record 2×2 image file used by witnesses. -/
def wImgFile : List ℕ :=
  [0, 0, 8, 3, 0, 0, 0, 1, 0, 0, 0, 2, 0, 0, 0, 2, 10, 20, 30, 255]

/-- Concrete matching one-record label file (label 7). -/
def wLblFile : List ℕ := [0, 0, 8, 1, 0, 0, 0, 1, 7]

/-- Concrete matching one-record label file with an invalid label byte 12. -/
def wLblFileBad : List ℕ := [0, 0, 8, 1, 0, 0, 0, 1, 12]

/-- Witness for C7 at a concrete one-record 2×2 file pair. -/
theorem C7_decoder_load_witness :
    (swapEndian (readLE32 wImgFile 0) = 2051 ∧
     swapEndian (readLE32 wLblFile 0) = 2049 ∧
     swapEndian (readLE32 wImgFile 4) = 1 ∧
     swapEndian (readLE32 wLblFile 4) = 1 ∧
     swapEndian (readLE32 wImgFile 8) = 2 ∧
     swapEndian (readLE32 wImgFile 12) = 2 ∧
     (∀ i, i < 1 → wLblFile.getD (8 + i) 0 ≤ 9) ∧
     (∀ b ∈ wImgFile, b ≤ 255)) ∧
    ((MnistLoader.load true true wImgFile wLblFile).length = 1 ∧
    (∀ i, i < 1 →
      (MnistLoader.load true true wImgFile wLblFile).getD i ⟨[], [], 0⟩ =
        decodeRecord wImgFile wLblFile (2 * 2) i ∧
      (decodeRecord wImgFile wLblFile (2 * 2) i).label =
        (wLblFile.getD (8 + i) 0 : ℤ) ∧
      0 ≤ (decodeRecord wImgFile wLblFile (2 * 2) i).label ∧
      (decodeRecord wImgFile wLblFile (2 * 2) i).label ≤ 9 ∧
      (decodeRecord wImgFile wLblFile (2 * 2) i).pixels.length = 2 * 2 ∧
      (∀ j, j < 2 * 2 →
        (decodeRecord wImgFile wLblFile (2 * 2) i).pixels.getD j 0 =
          (wImgFile.getD (16 + i * (2 * 2) + j) 0 : ℚ) / 255 ∧
        0 ≤ (decodeRecord wImgFile wLblFile (2 * 2) i).pixels.getD j 0 ∧
        (decodeRecord wImgFile wLblFile (2 * 2) i).pixels.getD j 0 ≤ 1) ∧
      (decodeRecord wImgFile wLblFile (2 * 2) i).target.length = 10 ∧
      (decodeRecord wImgFile wLblFile (2 * 2) i).target.getD
        (wLblFile.getD (8 + i) 0) 0 = 1 ∧
      (∀ k, k < 10 → k ≠ wLblFile.getD (8 + i) 0 →
        (decodeRecord wImgFile wLblFile (2 * 2) i).target.getD k 0 = 0))) :=
  ⟨⟨by decide, by decide, by decide, by decide, by decide, by decide, by decide, by decide⟩,
    C7_decoder_load wImgFile wLblFile 1 2 2 (by decide) (by decide) (by decide)
      (by decide) (by decide) (by decide) (by decide) (by decide)⟩

/-- Witness for C10 at a concrete file pair whose only label byte is 12. -/
theorem C10_bad_label_witness :
    (swapEndian (readLE32 wImgFile 0) = 2051 ∧
     swapEndian (readLE32 wLblFileBad 0) = 2049 ∧
     swapEndian (readLE32 wImgFile 4) = 1 ∧
     swapEndian (readLE32 wLblFileBad 4) = 1 ∧
     swapEndian (readLE32 wImgFile 8) = 2 ∧
     swapEndian (readLE32 wImgFile 12) = 2 ∧
     0 < 1 ∧ 10 ≤ wLblFileBad.getD (8 + 0) 0) ∧
    ((MnistLoader.load true true wImgFile wLblFileBad).length = 1 ∧
    (MnistLoader.load true true wImgFile wLblFileBad).getD 0 ⟨[], [], 0⟩ =
      decodeRecord wImgFile wLblFileBad (2 * 2) 0 ∧
    (decodeRecord wImgFile wLblFileBad (2 * 2) 0).label =
      (wLblFileBad.getD (8 + 0) 0 : ℤ) ∧
    (decodeRecord wImgFile wLblFileBad (2 * 2) 0).target = List.replicate 10 0 ∧
    (decodeRecord wImgFile wLblFileBad (2 * 2) 0).target.length = 10) :=
  ⟨⟨by decide, by decide, by decide, by decide, by decide, by decide, by decide, by decide⟩,
    C10_bad_label wImgFile wLblFileBad 1 2 2 0 (by decide) (by decide) (by decide)
      (by decide) (by decide) (by decide) (by decide) (by decide)⟩

/-! Characterization of the double loop of `scaleImage`. -/

theorem scaleImage_outer_length (src : List ℚ) (scale : ℚ) (srcW srcH dstW dstH : ℕ) :
    ∀ (m : ℕ) (l : List ℚ),
    ((List.range m).foldl (fun out y' => (List.range dstW).foldl
        (fun out x' => out.set (y' * dstW + x')
          (scalePixel src scale srcW srcH dstW dstH x' y')) out) l).length = l.length := by
  intro m
  induction m with
  | zero => intro l; rfl
  | succ m ih =>
    intro l
    rw [List.range_succ, List.foldl_append, List.foldl_cons, List.foldl_nil]
    exact Eq.trans (foldl_set_length _ _ _ _) (ih l)

theorem scaleImage_outer (src : List ℚ) (scale : ℚ) (srcW srcH dstW dstH : ℕ) :
    ∀ (m : ℕ) (l : List ℚ), l.length = dstW * dstH → ∀ x y : ℕ, x < dstW →
    y * dstW + x < dstW * dstH →
    ((List.range m).foldl (fun out y' => (List.range dstW).foldl
        (fun out x' => out.set (y' * dstW + x')
          (scalePixel src scale srcW srcH dstW dstH x' y')) out) l).getD (y * dstW + x) 0 =
      (if y < m then scalePixel src scale srcW srcH dstW dstH x y
       else l.getD (y * dstW + x) 0) := by
  intro m
  induction m with
  | zero =>
    intro l hl x y hx hj
    rw [List.range_zero, List.foldl_nil, if_neg (by omega)]
  | succ m ih =>
    intro l hl x y hx hj
    rw [List.range_succ, List.foldl_append, List.foldl_cons, List.foldl_nil]
    have hplen := scaleImage_outer_length src scale srcW srcH dstW dstH m l
    rw [foldl_set_range_getD 0 (fun x' => scalePixel src scale srcW srcH dstW dstH x' m)
      (m * dstW) dstW _ (y * dstW + x), hplen, hl]
    rcases Nat.lt_trichotomy y m with hy | hy | hy
    · have h2 : y * dstW + x < (y + 1) * dstW := by rw [Nat.succ_mul]; omega
      have h3 : (y + 1) * dstW ≤ m * dstW := Nat.mul_le_mul_right _ (by omega)
      rw [if_neg (by omega), ih l hl x y hx hj, if_pos hy, if_pos (by omega)]
    · subst hy
      rw [if_pos ⟨by omega, by omega, hj⟩, if_pos (Nat.lt_succ_self y)]
      have hix : y * dstW + x - y * dstW = x := by omega
      rw [hix]
    · have h2 : (m + 1) * dstW ≤ y * dstW := Nat.mul_le_mul_right _ (by omega)
      rw [Nat.succ_mul] at h2
      rw [if_neg (by omega), ih l hl x y hx hj, if_neg (by omega), if_neg (by omega)]

theorem scaleImage_getD (src : List ℚ) (scale : ℚ) (srcW srcH dstW dstH x y : ℕ)
    (hx : x < dstW) (hy : y < dstH) :
    (MnistLoader.scaleImage src scale srcW srcH dstW dstH).getD (y * dstW + x) 0 =
      scalePixel src scale srcW srcH dstW dstH x y := by
  have h2 : y * dstW + x < (y + 1) * dstW := by rw [Nat.succ_mul]; omega
  have h3 : (y + 1) * dstW ≤ dstH * dstW := Nat.mul_le_mul_right _ (by omega)
  have h4 : dstH * dstW = dstW * dstH := Nat.mul_comm _ _
  have hj : y * dstW + x < dstW * dstH := by omega
  simp only [MnistLoader.scaleImage]
  rw [scaleImage_outer src scale srcW srcH dstW dstH dstH
    (List.replicate (dstW * dstH) 0) (by simp) x y hx hj, if_pos hy]

/-- C2 (amended): for every destination pixel `(x, y)` of `scaleImage`,
with `(sx, sy)` the inverse-mapped source coordinate, the destination
pixel is exactly 0 when `(sx, sy)` falls outside the half-open region
`[0, W-1) × [0, H-1)` — not the claim's closed region `[0, W-2] × [0, H-2]`,
whose right and bottom edges are too tight: coordinates strictly between
`W-2` and `W-1` still have a full 2×2 neighbourhood and are interpolated —
and otherwise it equals the bilinear interpolation of the four neighbouring
source pixels with weights `wx = sx - floor sx`, `wy = sy - floor sy`. -/
theorem C2_scaleImage_pixel (src : List ℚ) (scale : ℚ) (srcW srcH dstW dstH x y : ℕ)
    (hx : x < dstW) (hy : y < dstH) :
    (MnistLoader.scaleImage src scale srcW srcH dstW dstH).getD (y * dstW + x) 0 =
      scalePixel src scale srcW srcH dstW dstH x y ∧
    (∀ sx sy : ℚ,
      sx = ((x : ℚ) - ((dstW : ℚ) - 1) / 2) / scale + ((srcW : ℚ) - 1) / 2 →
      sy = ((y : ℚ) - ((dstH : ℚ) - 1) / 2) / scale + ((srcH : ℚ) - 1) / 2 →
      ((sx < 0 ∨ (srcW : ℚ) - 1 ≤ sx ∨ sy < 0 ∨ (srcH : ℚ) - 1 ≤ sy →
        scalePixel src scale srcW srcH dstW dstH x y = 0) ∧
      (¬(sx < 0 ∨ (srcW : ℚ) - 1 ≤ sx ∨ sy < 0 ∨ (srcH : ℚ) - 1 ≤ sy) →
        scalePixel src scale srcW srcH dstW dstH x y =
          (src.getD (⌊sy⌋ * srcW + ⌊sx⌋).toNat 0 * (1 - (sx - ⌊sx⌋)) +
             src.getD (⌊sy⌋ * srcW + ⌊sx⌋ + 1).toNat 0 * (sx - ⌊sx⌋)) *
            (1 - (sy - ⌊sy⌋)) +
          (src.getD ((⌊sy⌋ + 1) * srcW + ⌊sx⌋).toNat 0 * (1 - (sx - ⌊sx⌋)) +
             src.getD ((⌊sy⌋ + 1) * srcW + ⌊sx⌋ + 1).toNat 0 * (sx - ⌊sx⌋)) *
            (sy - ⌊sy⌋)))) := by
  refine ⟨scaleImage_getD src scale srcW srcH dstW dstH x y hx hy, ?_⟩
  intro sx sy hsx hsy
  subst hsx
  subst hsy
  constructor
  · intro hguard
    simp only [scalePixel]
    rw [if_pos hguard]
  · intro hguard
    simp only [scalePixel]
    rw [if_neg hguard]

/-- Witness for C2 at a concrete pixel of a 4×4 scaling. -/
theorem C2_scaleImage_pixel_witness :
    ((2 : ℕ) < 4 ∧ (1 : ℕ) < 4) ∧
    ((MnistLoader.scaleImage (List.replicate 16 1) (1 / 2) 4 4 4 4).getD (1 * 4 + 2) 0 =
      scalePixel (List.replicate 16 1) (1 / 2) 4 4 4 4 2 1 ∧
    (∀ sx sy : ℚ,
      sx = (((2 : ℕ) : ℚ) - (((4 : ℕ) : ℚ) - 1) / 2) / (1 / 2) + (((4 : ℕ) : ℚ) - 1) / 2 →
      sy = (((1 : ℕ) : ℚ) - (((4 : ℕ) : ℚ) - 1) / 2) / (1 / 2) + (((4 : ℕ) : ℚ) - 1) / 2 →
      ((sx < 0 ∨ ((4 : ℕ) : ℚ) - 1 ≤ sx ∨ sy < 0 ∨ ((4 : ℕ) : ℚ) - 1 ≤ sy →
        scalePixel (List.replicate 16 1) (1 / 2) 4 4 4 4 2 1 = 0) ∧
      (¬(sx < 0 ∨ ((4 : ℕ) : ℚ) - 1 ≤ sx ∨ sy < 0 ∨ ((4 : ℕ) : ℚ) - 1 ≤ sy) →
        scalePixel (List.replicate 16 1) (1 / 2) 4 4 4 4 2 1 =
          ((List.replicate 16 (1 : ℚ)).getD (⌊sy⌋ * 4 + ⌊sx⌋).toNat 0 * (1 - (sx - ⌊sx⌋)) +
             (List.replicate 16 (1 : ℚ)).getD (⌊sy⌋ * 4 + ⌊sx⌋ + 1).toNat 0 * (sx - ⌊sx⌋)) *
            (1 - (sy - ⌊sy⌋)) +
          ((List.replicate 16 (1 : ℚ)).getD ((⌊sy⌋ + 1) * 4 + ⌊sx⌋).toNat 0 * (1 - (sx - ⌊sx⌋)) +
             (List.replicate 16 (1 : ℚ)).getD ((⌊sy⌋ + 1) * 4 + ⌊sx⌋ + 1).toNat 0 * (sx - ⌊sx⌋)) *
            (sy - ⌊sy⌋))))) :=
  ⟨⟨by decide, by decide⟩,
    C2_scaleImage_pixel (List.replicate 16 1) (1 / 2) 4 4 4 4 2 1 (by decide) (by decide)⟩

/-- C2 counterexample: scaling the all-ones 4×4 image by 1/2, destination
pixel `(x, y) = (2, 1)` inverse-maps to `sx = 5/2`, which lies outside the
claim's closed region `[0, W-2] = [0, 2]`, yet the destination pixel is 1,
not 0 as the claim requires. -/
theorem C2_counterexample :
    ((4 : ℚ) - 2 < ((2 : ℚ) - ((4 : ℚ) - 1) / 2) / (1 / 2) + ((4 : ℚ) - 1) / 2) ∧
    (MnistLoader.scaleImage (List.replicate 16 1) (1 / 2) 4 4 4 4).getD (1 * 4 + 2) 0 = 1 := by
  constructor
  · norm_num
  · rw [scaleImage_getD (List.replicate 16 1) (1 / 2) 4 4 4 4 2 1 (by norm_num) (by norm_num)]
    norm_num [scalePixel]

end ImgProc
